import Mathlib

namespace Lucien

/-!
Verification of the Lucien repository's offline comment cache, storage
utilities and Express JSON-file backend, via a shallow embedding of the
JavaScript source into Lean.
-/
/-! ## Backend: cover votes (backend/server.js, POST /api/votes)

The votes object in database.json is a JSON object mapping cover ids to
counts.  We model it as a partial map from strings to counts, where none
means the key is absent from the object. -/
/-- The data.votes JSON object: a partial finite map from cover id to count. -/
def VotesMap : Type := String → Option Nat

/-- The list literal of accepted cover ids in the handler. -/
def validCoverIds : List String := ["cover1", "cover2", "cover3"]

/-- POST /api/votes handler.  Arguments readOk and writeOk model whether
readDB and writeDB succeed.  The result is the HTTP status together with
the votes object as persisted after the request (unchanged when the
request is rejected or the write fails). -/
def votesPost (votes : VotesMap) (coverId : String) (readOk writeOk : Bool) :
    Nat × VotesMap :=
  if coverId = "" ∨ coverId ∉ validCoverIds then (400, votes)
  else if readOk = false then (500, votes)
  else
    let updated : VotesMap :=
      fun k => if k = coverId then some ((votes coverId).getD 0 + 1) else votes k
    if writeOk then (200, updated) else (500, votes)

/-! ## Backend: visit counters (backend/server.js, POST /api/visits/increment) -/
/-- The data.visits object: total and cover-page counters plus the daily
map from date string to count (none means the date key is absent). -/
structure Visits where
  total : Nat
  coverPage : Nat
  daily : String → Option Nat
  lastUpdate : String

/-- POST /api/visits/increment handler.  today is the date key computed
from the current time, nowIso the ISO timestamp; readOk and writeOk model
readDB and writeDB.  Result: HTTP status and the persisted visits. -/
def visitsIncrement (v : Visits) (page : String) (today nowIso : String)
    (readOk writeOk : Bool) : Nat × Visits :=
  if readOk = false then (500, v)
  else
    let v1 :=
      if page = "total" then { v with total := v.total + 1 }
      else if page = "cover" then { v with coverPage := v.coverPage + 1 }
      else v
    let v2 := { v1 with daily :=
      fun k => if k = today then some ((v1.daily today).getD 0 + 1) else v1.daily k }
    let v3 := { v2 with lastUpdate := nowIso }
    if writeOk then (200, v3) else (500, v)

/-! ## JSON model (for the localStorage utilities in the unnamed storage module)

saveToStorage and getFromStorage pass values through JSON.stringify and
JSON.parse.  We model JSON-serializable values as the inductive JValue
(null, booleans, integer numbers, strings, arrays, objects) together with
an executable printer mirroring JSON.stringify's compact output and an
executable parser modelling JSON.parse. -/
/-- JSON-serializable values; strings are lists of characters, object
members are key-value pairs in insertion order. -/
inductive JValue where
  | jnull : JValue
  | jbool : Bool → JValue
  | jnum : Int → JValue
  | jstr : List Char → JValue
  | jarr : List JValue → JValue
  | jobj : List (List Char × JValue) → JValue
deriving Repr

/-- Decimal digit character for d below 10. -/
def digitChar : Nat → Char
  | 0 => '0' | 1 => '1' | 2 => '2' | 3 => '3' | 4 => '4'
  | 5 => '5' | 6 => '6' | 7 => '7' | 8 => '8' | _ => '9'

/-- Decimal digits of a natural number, most significant first. -/
def natChars (n : Nat) : List Char :=
  if _hlt : n < 10 then [digitChar n]
  else natChars (n / 10) ++ [digitChar (n % 10)]
  decreasing_by exact Nat.div_lt_self (by omega) (by omega)

/-- Decimal rendering of an integer as JSON.stringify prints it. -/
def intChars : Int → List Char
  | .ofNat n => natChars n
  | .negSucc m => '-' :: natChars (m + 1)

/-- String-body escaping as done by JSON.stringify: quote and backslash
get a backslash prefix, other characters are emitted as they are. -/
def escChars : List Char → List Char
  | [] => []
  | c :: cs => if c = '"' ∨ c = '\\' then '\\' :: c :: escChars cs
               else c :: escChars cs

mutual

/-- Compact JSON.stringify output of a value. -/
def sVal : JValue → List Char
  | .jnull => ['n', 'u', 'l', 'l']
  | .jbool true => ['t', 'r', 'u', 'e']
  | .jbool false => ['f', 'a', 'l', 's', 'e']
  | .jnum n => intChars n
  | .jstr s => '"' :: (escChars s ++ ['"'])
  | .jarr [] => ['[', ']']
  | .jarr (v :: vs) => '[' :: (sVal v ++ sTail vs)
  | .jobj [] => ['{', '}']
  | .jobj (kv :: kvs) => '{' :: (sKV kv ++ sOTail kvs)

/-- Remaining array elements, each preceded by a comma, then the closing
bracket. -/
def sTail : List JValue → List Char
  | [] => [']']
  | v :: vs => ',' :: (sVal v ++ sTail vs)

/-- One object member: quoted key, colon, value. -/
def sKV : List Char × JValue → List Char
  | (k, v) => '"' :: (escChars k ++ ['"', ':'] ++ sVal v)

/-- Remaining object members, each preceded by a comma, then the closing
brace. -/
def sOTail : List (List Char × JValue) → List Char
  | [] => ['}']
  | kv :: kvs => ',' :: (sKV kv ++ sOTail kvs)

end

/-- Numeric value of a decimal digit character. -/
def digitVal (c : Char) : Nat := c.toNat - 48

/-- Value of a digit run, most significant first. -/
def digitsToNat (ds : List Char) : Nat :=
  ds.foldl (fun a c => a * 10 + digitVal c) 0

/-- Parser for a string body after the opening quote: a backslash takes
the following character literally, an unescaped quote ends the string. -/
def pStr : List Char → Option (List Char × List Char)
  | [] => none
  | c :: rest =>
    if c = '"' then some ([], rest)
    else if c = '\\' then
      match rest with
      | [] => none
      | c2 :: rest2 =>
        match pStr rest2 with
        | some (s, r) => some (c2 :: s, r)
        | none => none
    else
      match pStr rest with
      | some (s, r) => some (c :: s, r)
      | none => none

/-- Parser for the literal tokens null, true and false. -/
def pLit (cs : List Char) : Option (JValue × List Char) :=
  match cs with
  | 'n' :: 'u' :: 'l' :: 'l' :: rest => some (.jnull, rest)
  | 't' :: 'r' :: 'u' :: 'e' :: rest => some (.jbool true, rest)
  | 'f' :: 'a' :: 'l' :: 's' :: 'e' :: rest => some (.jbool false, rest)
  | _ => none

/-- One step of the JSON value parser; pv, pa, pk, po are the parsers for
nested values, array tails, object members and object tails. -/
def pValStep (pv : List Char → Option (JValue × List Char))
    (pa : List Char → Option (List JValue × List Char))
    (pk : List Char → Option ((List Char × JValue) × List Char))
    (po : List Char → Option (List (List Char × JValue) × List Char))
    (cs : List Char) : Option (JValue × List Char) :=
  match cs with
  | [] => none
  | c :: r =>
    if c.isDigit then
      some (.jnum (Int.ofNat (digitsToNat ((c :: r).takeWhile Char.isDigit))),
            (c :: r).dropWhile Char.isDigit)
    else if c = '-' then
      if (r.takeWhile Char.isDigit).isEmpty then none
      else some (.jnum (-(digitsToNat (r.takeWhile Char.isDigit) : Int)),
                 r.dropWhile Char.isDigit)
    else if c = '"' then
      match pStr r with
      | some (s, rest) => some (.jstr s, rest)
      | none => none
    else if c = '[' then
      match r with
      | [] => none
      | c2 :: r2 =>
        if c2 = ']' then some (.jarr [], r2)
        else
          match pv r with
          | some (v, rest) =>
            match pa rest with
            | some (vs, rest2) => some (.jarr (v :: vs), rest2)
            | none => none
          | none => none
    else if c = '{' then
      match r with
      | [] => none
      | c2 :: r2 =>
        if c2 = '}' then some (.jobj [], r2)
        else
          match pk r with
          | some (kv, rest) =>
            match po rest with
            | some (kvs, rest2) => some (.jobj (kv :: kvs), rest2)
            | none => none
          | none => none
    else pLit cs

/-- One step of the array-tail parser: a comma and a further element, or
the closing bracket. -/
def pATailStep (pv : List Char → Option (JValue × List Char))
    (pa : List Char → Option (List JValue × List Char))
    (cs : List Char) : Option (List JValue × List Char) :=
  match cs with
  | [] => none
  | c :: rest =>
    if c = ']' then some ([], rest)
    else if c = ',' then
      match pv rest with
      | some (v, rest1) =>
        match pa rest1 with
        | some (vs, rest2) => some (v :: vs, rest2)
        | none => none
      | none => none
    else none

/-- One step of the object-member parser: quoted key, colon, value. -/
def pKVStep (pv : List Char → Option (JValue × List Char))
    (cs : List Char) : Option ((List Char × JValue) × List Char) :=
  match cs with
  | [] => none
  | c :: r =>
    if c = '"' then
      match pStr r with
      | some (k, rest) =>
        match rest with
        | [] => none
        | c2 :: rest1 =>
          if c2 = ':' then
            match pv rest1 with
            | some (v, rest2) => some ((k, v), rest2)
            | none => none
          else none
      | none => none
    else none

/-- One step of the object-tail parser: a comma and a further member, or
the closing brace. -/
def pOTailStep (pk : List Char → Option ((List Char × JValue) × List Char))
    (po : List Char → Option (List (List Char × JValue) × List Char))
    (cs : List Char) : Option (List (List Char × JValue) × List Char) :=
  match cs with
  | [] => none
  | c :: rest =>
    if c = '}' then some ([], rest)
    else if c = ',' then
      match pk rest with
      | some (kv, rest1) =>
        match po rest1 with
        | some (kvs, rest2) => some (kv :: kvs, rest2)
        | none => none
      | none => none
    else none

mutual

/-- Fuel-indexed JSON value parser modelling JSON.parse on compact input.
Returns the parsed value and the unconsumed remainder. -/
def pVal : Nat → List Char → Option (JValue × List Char)
  | 0, _ => none
  | fuel + 1, cs => pValStep (pVal fuel) (pATail fuel) (pKV fuel) (pOTail fuel) cs

/-- Fuel-indexed parser for what follows an array element. -/
def pATail : Nat → List Char → Option (List JValue × List Char)
  | 0, _ => none
  | fuel + 1, cs => pATailStep (pVal fuel) (pATail fuel) cs

/-- Fuel-indexed parser for one object member. -/
def pKV : Nat → List Char → Option ((List Char × JValue) × List Char)
  | 0, _ => none
  | fuel + 1, cs => pKVStep (pVal fuel) cs

/-- Fuel-indexed parser for what follows an object member. -/
def pOTail : Nat → List Char → Option (List (List Char × JValue) × List Char)
  | 0, _ => none
  | fuel + 1, cs => pOTailStep (pKV fuel) (pOTail fuel) cs

end

/-- Model of JSON.parse: run the fuelled parser with ample fuel and
require the whole input to be consumed; none models a thrown SyntaxError. -/
def jsonParse (cs : List Char) : Option JValue :=
  match pVal (cs.length + 1) cs with
  | some (v, []) => some v
  | _ => none

/-- Head test used by the parser lemmas: the first character of the list,
if any, does not satisfy p. -/
def headNotB (p : Char → Bool) : List Char → Bool
  | [] => true
  | c :: _ => !p c

/-- A remainder is safe to follow a printed number when it does not start
with a digit. -/
def numSafeB : List Char → Bool := headNotB Char.isDigit

mutual

/-- Fuel bound under which pVal is shown to succeed on printed output:
one unit per parser call. -/
def muV : JValue → Nat
  | .jnull => 1
  | .jbool _ => 1
  | .jnum _ => 1
  | .jstr _ => 1
  | .jarr [] => 1
  | .jarr (v :: vs) => 1 + muV v + muT vs
  | .jobj [] => 1
  | .jobj (kv :: kvs) => 1 + muKV kv + muOT kvs

/-- Fuel bound for pATail on printed array tails. -/
def muT : List JValue → Nat
  | [] => 1
  | v :: vs => 1 + muV v + muT vs

/-- Fuel bound for pKV on printed object members. -/
def muKV : List Char × JValue → Nat
  | (_, v) => 1 + muV v

/-- Fuel bound for pOTail on printed object tails. -/
def muOT : List (List Char × JValue) → Nat
  | [] => 1
  | kv :: kvs => 1 + muKV kv + muOT kvs

end

/-! ## localStorage utilities (saveToStorage / getFromStorage)

The browser localStorage is a map from string keys to stored strings.
saveToStorage serializes with JSON.stringify and writes; getFromStorage
reads, returns the default when the key is absent, parses otherwise, and
returns the default when parsing throws. -/
/-- The browser localStorage: keys to stored character strings, none when
the key was never written. -/
def StorageMap : Type := String → Option (List Char)

/-- A storage in which no key was ever written. -/
def emptyStorage : StorageMap := fun _ => none

/-- saveToStorage from the storage utilities: JSON.stringify the value,
write it under the key, return true on success (the quota-exceeded
failure path is not reachable in this model, so the flag is true). -/
def saveToStorage (st : StorageMap) (key : String) (data : JValue) :
    StorageMap × Bool :=
  (fun k => if k = key then some (sVal data) else st k, true)

/-- getFromStorage from the storage utilities: the default for an absent
key, otherwise JSON.parse of the stored item, with the default returned
when parsing fails (the catch branch). -/
def getFromStorage (st : StorageMap) (key : String) (dflt : JValue) : JValue :=
  match st key with
  | none => dflt
  | some item =>
    match jsonParse item with
    | some v => v
    | none => dflt

/-! ## Client-side comment records and the pending store

The pendingComments localStorage key holds an array of comment objects.
Records are JavaScript objects whose fields may be absent; absence is
modelled with Option (none = the field is not on the object). -/
/-- The id values the client generates: Date.now() numbers from the
hybrid fallback, and the template strings local_(now) from addPending and
temp_(now)_(random) from the old addComment. -/
inductive CID where
  | numeric : Nat → CID
  | localTag : Nat → CID
  | tempTag : Nat → List Char → CID
deriving DecidableEq, Repr

/-- A comment object as the client passes it around and stores it. -/
structure PComment where
  name : List Char
  email : List Char
  message : List Char
  id : Option CID
  date : Option (List Char)
  approved : Option Bool
  pending : Option Bool
  attempts : Option Nat
  lastAttempt : Option (List Char)
deriving DecidableEq, Repr

/-- The record commentsStorage.addPending builds from a submitted comment:
the comment spread plus a fresh local_(now) id, the current ISO date,
pending true and attempts 0. -/
def addPendingRecord (c : PComment) (now : Nat) (nowIso : List Char) : PComment :=
  { c with id := some (.localTag now), date := some nowIso,
           pending := some true, attempts := some 0 }

/-- commentsStorage.addPending: append the built record to the stored
pendingComments array. -/
def addPending (store : List PComment) (c : PComment) (now : Nat)
    (nowIso : List Char) : List PComment :=
  store ++ [addPendingRecord c now nowIso]

/-- commentsStorage.removePending: keep the records whose id differs from
the given one. -/
def removePending (store : List PComment) (commentId : Option CID) :
    List PComment :=
  store.filter (fun c => c.id ≠ commentId)

/-- commentsStorage.incrementAttempts: find the first record with the
given id and bump its attempts field (absent counts as 0), stamping
lastAttempt. -/
def incrementAttempts (store : List PComment) (commentId : Option CID)
    (nowIso : List Char) : List PComment :=
  match store with
  | [] => []
  | c :: tl =>
    if c.id = commentId then
      { c with attempts := some (c.attempts.getD 0 + 1),
               lastAttempt := some nowIso } :: tl
    else c :: incrementAttempts tl commentId nowIso

/-! ## hybridAPI.addComment (src/utils/api.js) -/
/-- The response object of a comment submission as the caller sees it. -/
structure AddCommentResult where
  success : Bool
  comment : PComment
deriving DecidableEq, Repr

/-- The record the hybridAPI.addComment fallback pushes onto the
pendingComments array: the submitted data spread plus a Date.now() id,
the current ISO date and pending true.  No attempts field is added. -/
def hybridFallbackRecord (c : PComment) (now : Nat) (nowIso : List Char) :
    PComment :=
  { c with id := some (.numeric now), date := some nowIso, pending := some true }

/-- Environment outcome of one hybridAPI.addComment call: the server
accepted (with its response), the network request failed (fallback path),
or the fallback itself threw (for instance on corrupt storage), which is
the only way the promise rejects. -/
inductive HybridOutcome where
  | server : AddCommentResult → HybridOutcome
  | netFail : HybridOutcome
  | storageFail : HybridOutcome
deriving DecidableEq, Repr

/-- hybridAPI.addComment: try the server; on network failure append the
fallback record to the pendingComments array and resolve successfully
with it.  Returns the promise outcome and the pendingComments array after
the call. -/
def hybridAPI_addComment (out : HybridOutcome) (store : List PComment)
    (c : PComment) (now : Nat) (nowIso : List Char) :
    Except Unit (AddCommentResult × List PComment) :=
  match out with
  | .server resp => .ok (resp, store)
  | .netFail =>
    let nc := hybridFallbackRecord c now nowIso
    .ok (⟨true, nc⟩, store ++ [nc])
  | .storageFail => .error ()

/-- The shape C2 claims for every record placed into the pending store:
pending true plus a numeric attempts field. -/
def pendingRecordOk (c : PComment) : Prop :=
  c.pending = some true ∧ c.attempts.isSome = true

/-- A submission that carries no attempts field, as any caller outside
the old useComments hook may produce. -/
def plainSubmission : PComment :=
  { name := ['a', 'n', 'a'], email := ['a', '@', 'b', '.', 'c'],
    message := ['o', 'l', 'a'], id := none, date := none, approved := none,
    pending := none, attempts := none, lastAttempt := none }

/-! ## retryPendingComments (src/hooks/useComments_OLD.js)

The retry pass snapshots the pending store, walks the snapshot while the
store itself is read and rewritten through commentsStorage, and at the
end schedules another pass after a constant five minutes when pending
comments remain.  Per-iteration environment data (the hybrid call
outcome, Date.now and the ISO date) is supplied by an index function. -/
/-- The comparison comment.attempts greater-or-equal maxRetries as
JavaScript evaluates it: an absent attempts field compares false. -/
def attemptsExceeded : Option Nat → Nat → Bool
  | some n, m => decide (m ≤ n)
  | none, _ => false

/-- Per-iteration environment of the retry loop. -/
structure RetryStepEnv where
  hOut : HybridOutcome
  now : Nat
  nowIso : List Char
deriving Repr

/-- Outcome of the retry loop body: the pending store after the walk, the
success and failure counters, and the ids for which a hybrid send was
attempted. -/
structure LoopOut where
  store : List PComment
  successful : Nat
  failed : Nat
  sends : List (Option CID)
deriving DecidableEq, Repr

/-- The for-loop of retryPendingComments over the snapshot: a comment at
or past maxRetries is counted failed and skipped; otherwise its attempts
are bumped in the store, the hybrid call is made with the id cleared, and
on resolution the comment is removed from the store (on rejection it is
counted failed). -/
def retryLoop (maxRetries : Nat) (env : Nat → RetryStepEnv) :
    Nat → List PComment → List PComment → LoopOut
  | _, store, [] => ⟨store, 0, 0, []⟩
  | i, store, c :: rest =>
    if attemptsExceeded c.attempts maxRetries then
      let r := retryLoop maxRetries env (i + 1) store rest
      { r with failed := r.failed + 1 }
    else
      let store1 := incrementAttempts store c.id (env i).nowIso
      match hybridAPI_addComment (env i).hOut store1 { c with id := none }
          (env i).now (env i).nowIso with
      | .ok (_, store2) =>
        let store3 := removePending store2 c.id
        let r := retryLoop maxRetries env (i + 1) store3 rest
        { r with successful := r.successful + 1, sends := c.id :: r.sends }
      | .error _ =>
        let r := retryLoop maxRetries env (i + 1) store1 rest
        { r with failed := r.failed + 1, sends := c.id :: r.sends }

/-- Result of one retryPendingComments call: the pending store afterwards,
the returned counters, the attempted sends, and the delay of the timer it
scheduled (none when no timer was set). -/
structure RoundResult where
  store : List PComment
  successful : Nat
  failed : Nat
  sends : List (Option CID)
  delay : Option Nat
deriving DecidableEq, Repr

/-- One retryPendingComments call: bail out returning zero counters when
the guard flag is set, the client is offline, or nothing is pending;
otherwise walk the snapshot and, when pending comments remain, schedule
the next call five minutes later. -/
def retryRound (maxRetries : Nat) (guard online : Bool)
    (store : List PComment) (env : Nat → RetryStepEnv) : RoundResult :=
  if guard ∨ online = false then ⟨store, 0, 0, [], none⟩
  else if store.isEmpty then ⟨store, 0, 0, [], none⟩
  else
    let r := retryLoop maxRetries env 0 store store
    ⟨r.store, r.successful, r.failed, r.sends,
     if r.store.isEmpty then none else some (5 * 60 * 1000)⟩

/-- The chain of retry rounds started by the scheduled timers: each timer
clears the guard flag and calls retryPendingComments again; the client is
taken to stay online so that the rounds keep running. -/
def retryTrace (maxRetries : Nat) (envs : Nat → Nat → RetryStepEnv)
    (store0 : List PComment) : Nat → RoundResult
  | 0 => retryRound maxRetries false true store0 (envs 0)
  | n + 1 =>
    retryRound maxRetries false true
      (retryTrace maxRetries envs store0 n).store (envs (n + 1))

/-- A pending comment whose attempts counter has reached the default
maxRetries of three. -/
def maxedComment : PComment :=
  { name := ['b', 'o', 'b'], email := ['b', '@', 'c', '.', 'd'],
    message := ['o', 'i'], id := some (.localTag 7),
    date := some ['d'], approved := some false, pending := some true,
    attempts := some 3, lastAttempt := none }

/-- A fixed retry environment for concrete runs: the hybrid call always
falls back and the clock reads the iteration index. -/
def constEnv : Nat → Nat → RetryStepEnv :=
  fun _ j => ⟨.netFail, j, ['e']⟩

/-! ## addComment validation (src/hooks/useComments_OLD.js) -/
/-- The form data submitted to addComment. -/
structure CommentInput where
  name : List Char
  email : List Char
  message : List Char
deriving DecidableEq, Repr

/-- JavaScript String.prototype.trim: strip whitespace at both ends. -/
def trimChars (s : List Char) : List Char :=
  ((s.dropWhile Char.isWhitespace).reverse.dropWhile Char.isWhitespace).reverse

/-- JavaScript String.prototype.toLowerCase on the character list. -/
def lowerChars (s : List Char) : List Char := s.map Char.toLower

/-- JavaScript String.prototype.includes: w occurs as a contiguous
substring of s. -/
def hasSubstr : List Char → List Char → Bool
  | s, w =>
    if w.isPrefixOf s then true
    else
      match s with
      | [] => false
      | _ :: tl => hasSubstr tl w

/-- All decompositions of a list around one occurrence of the character
t: pairs of what is before and after that occurrence. -/
def splitsAt (t : Char) : List Char → List (List Char × List Char)
  | [] => []
  | x :: tl =>
    (if x = t then [(([] : List Char), tl)] else []) ++
      (splitsAt t tl).map (fun p => (x :: p.1, p.2))

/-- One or more characters that are neither whitespace nor the at sign:
the character class of the validation regex. -/
def matchSeg (cs : List Char) : Bool :=
  !cs.isEmpty && cs.all (fun ch => !ch.isWhitespace && ch ≠ '@')

/-- The email regex of validateComment: something at something dot
something, where each part is one or more non-space non-at characters
(the domain parts may contain further dots). -/
def emailValid (s : List Char) : Bool :=
  (splitsAt '@' s).any (fun p =>
    matchSeg p.1 &&
      (splitsAt '.' p.2).any (fun q => matchSeg q.1 && matchSeg q.2))

/-- The forbidden word list of validateComment. -/
def forbiddenWords : List (List Char) :=
  [['s', 'p', 'a', 'm'], ['f', 'u', 'c', 'k'], ['s', 'h', 'i', 't']]

/-- The validation error messages, by their cause. -/
inductive VErr where
  | nameShort
  | emailInvalid
  | messageShort
  | messageLong
  | forbiddenWord
deriving DecidableEq, Repr

/-- validateComment: the error list built by the four field checks and
the forbidden-word check, in source order. -/
def validateComment (c : CommentInput) : List VErr :=
  (if c.name = [] ∨ (trimChars c.name).length < 2 then [VErr.nameShort]
   else []) ++
  (if c.email = [] ∨ emailValid c.email = false then [VErr.emailInvalid]
   else []) ++
  (if c.message = [] ∨ (trimChars c.message).length < 10 then
    [VErr.messageShort] else []) ++
  (if c.message ≠ [] ∧ 1000 < c.message.length then [VErr.messageLong]
   else []) ++
  (if forbiddenWords.any
      (fun w => hasSubstr (lowerChars c.message) (lowerChars w)) then
    [VErr.forbiddenWord] else [])

/-- The comment object addComment builds before sending: the form data
plus a temp id, the ISO date, approved false and attempts 0. -/
def mkNewComment (input : CommentInput) (now : Nat) (rand nowIso : List Char) :
    PComment :=
  { name := input.name, email := input.email, message := input.message,
    id := some (.tempTag now rand), date := some nowIso,
    approved := some false, pending := none, attempts := some 0,
    lastAttempt := none }

/-- What addComment returns and leaves behind: the success flag of the
returned object, the returned comment, the displayed comments list and
the pending store. -/
structure AddCommentOutcome where
  success : Bool
  comment : Option PComment
  comments : List PComment
  pendingStore : List PComment
deriving DecidableEq, Repr

/-- addComment of the old useComments hook: validation and duplicate
check first (throwing into the catch, which reports failure); then the
online path through hybridAPI.addComment with the offline-pending
fallback, or the offline path that stores the comment as pending. -/
def addComment_OLD (input : CommentInput)
    (comments pendingStore : List PComment)
    (isOnline enableOffline isDup : Bool) (hOut : HybridOutcome)
    (now : Nat) (rand nowIso : List Char) : AddCommentOutcome :=
  if validateComment input ≠ [] then ⟨false, none, comments, pendingStore⟩
  else if isDup then ⟨false, none, comments, pendingStore⟩
  else
    let newComment := mkNewComment input now rand nowIso
    if isOnline then
      match hybridAPI_addComment hOut pendingStore newComment now nowIso with
      | .ok (result, store1) =>
        if result.comment.approved = some true then
          ⟨true, some result.comment, result.comment :: comments, store1⟩
        else ⟨true, some result.comment, comments, store1⟩
      | .error _ =>
        if enableOffline then
          ⟨true, some newComment, comments,
           addPending pendingStore newComment now nowIso⟩
        else ⟨false, none, comments, pendingStore⟩
    else
      if enableOffline then
        ⟨true, some newComment, comments,
         addPending pendingStore newComment now nowIso⟩
      else ⟨false, none, comments, pendingStore⟩

/-- A submission whose name is a single character. -/
def shortNameInput : CommentInput :=
  { name := ['A'], email := ['a', '@', 'b', '.', 'c'],
    message := ['t', 'h', 'i', 's', ' ', 'i', 's', ' ', 'a', ' ',
                'c', 'o', 'm', 'm', 'e', 'n', 't'] }

/-! ## loadComments (src/hooks/useComments.js)

The new hook keeps its comments in a different shape (author/content) and
mirrors page one to localStorage under comments_(postId) through
useLocalStorage; on a failed fetch of page one it falls back to that
mirror when it is non-empty. -/
/-- A comment as the new useComments hook shapes it. -/
structure NComment where
  id : Nat
  author : List Char
  content : List Char
deriving DecidableEq, Repr

/-- The result of api.fetchComments: one page plus the has-more flag. -/
structure FetchPage where
  comments : List NComment
  hasMore : Bool
deriving Repr

/-- The hook state touched by loadComments: the displayed comments, the
localStorage mirror (keyed by string), the has-more flag and the page. -/
structure CommentsState where
  comments : List NComment
  storage : List Char → Option (List NComment)
  hasMore : Bool
  page : Nat

/-- The localStorage key comments_(postId) of the mirror. -/
def commentsKey (postId : List Char) : List Char :=
  ['c', 'o', 'm', 'm', 'e', 'n', 't', 's', '_'] ++ postId

/-- loadComments: nothing without a postId; on a successful fetch the
page replaces (page one or reset) or extends (deduplicated by id) the
list, and page one is mirrored to storage; on a failed fetch of page one
the non-empty mirror becomes the displayed list. -/
def loadComments (postId : Option (List Char)) (pageNum : Nat)
    (resetComments : Bool) (fetch : Except Unit FetchPage)
    (st : CommentsState) : CommentsState :=
  match postId with
  | none => st
  | some pid =>
    match fetch with
    | .ok result =>
      let newComments :=
        if resetComments ∨ pageNum = 1 then result.comments
        else st.comments ++ result.comments.filter
          (fun c => ¬ st.comments.any (fun e => e.id = c.id))
      let newStorage :=
        if pageNum = 1 then
          fun k => if k = commentsKey pid then some result.comments
                   else st.storage k
        else st.storage
      { comments := newComments, storage := newStorage,
        hasMore := result.hasMore, page := pageNum }
    | .error _ =>
      let localComments := (st.storage (commentsKey pid)).getD []
      if pageNum = 1 ∧ localComments ≠ [] then
        { st with comments := localComments }
      else st

/-- A state whose mirror for post p already caches one comment. -/
def cachedState : CommentsState :=
  { comments := [],
    storage := fun k => if k = commentsKey ['p'] then
        some [⟨1, ['j', 'o'], ['o', 'i']⟩] else none,
    hasMore := true, page := 1 }

theorem digitVal_digitChar (d : Nat) (hd : d < 10) :
    digitVal (digitChar d) = d := by
  interval_cases d <;> decide

theorem isDigit_digitChar (d : Nat) (hd : d < 10) :
    (digitChar d).isDigit = true := by
  interval_cases d <;> decide

theorem natChars_ne_nil (n : Nat) : natChars n ≠ [] := by
  rw [natChars]
  split <;> simp

theorem natChars_digits (n : Nat) : ∀ c ∈ natChars n, c.isDigit = true := by
  induction n using Nat.strong_induction_on with
  | _ n ih =>
    rw [natChars]
    split
    · next h =>
      intro c hc
      simp only [List.mem_singleton] at hc
      subst hc
      exact isDigit_digitChar n h
    · next h =>
      intro c hc
      rw [List.mem_append] at hc
      rcases hc with hc | hc
      · exact ih (n / 10) (Nat.div_lt_self (by omega) (by omega)) c hc
      · simp only [List.mem_singleton] at hc
        subst hc
        exact isDigit_digitChar (n % 10) (Nat.mod_lt _ (by omega))

theorem digitsToNat_append_last (ds : List Char) (c : Char) :
    digitsToNat (ds ++ [c]) = digitsToNat ds * 10 + digitVal c := by
  simp [digitsToNat, List.foldl_append]

theorem digitsToNat_natChars (n : Nat) : digitsToNat (natChars n) = n := by
  induction n using Nat.strong_induction_on with
  | _ n ih =>
    rw [natChars]
    split
    · next h =>
      simp [digitsToNat, digitVal_digitChar n h]
    · next h =>
      rw [digitsToNat_append_last,
        ih (n / 10) (Nat.div_lt_self (by omega) (by omega)),
        digitVal_digitChar (n % 10) (Nat.mod_lt _ (by omega))]
      omega

theorem takeWhile_all_append (p : Char → Bool) (l r : List Char)
    (hall : ∀ c ∈ l, p c = true) (hr : headNotB p r = true) :
    (l ++ r).takeWhile p = l ∧ (l ++ r).dropWhile p = r := by
  induction l with
  | nil =>
    cases r with
    | nil => simp
    | cons c tl =>
      simp only [headNotB, Bool.not_eq_true'] at hr
      simp [List.takeWhile, List.dropWhile, hr]
  | cons a l ih =>
    have ha : p a = true := hall a (List.mem_cons_self a l)
    have hrec := ih (fun c hc => hall c (List.mem_cons_of_mem a hc))
    simp [List.takeWhile, List.dropWhile, ha, hrec.1, hrec.2]

theorem pStr_escChars (s : List Char) :
    ∀ rest : List Char, pStr (escChars s ++ ('"' :: rest)) = some (s, rest) := by
  induction s with
  | nil =>
    intro rest
    simp [escChars, pStr.eq_def]
  | cons c s ih =>
    intro rest
    by_cases hc : c = '"' ∨ c = '\\'
    · rw [escChars, if_pos hc]
      have hcs : ('\\' :: c :: escChars s) ++ ('"' :: rest) =
          '\\' :: c :: (escChars s ++ ('"' :: rest)) := by simp
      rw [hcs, pStr.eq_def]
      simp [ih rest]
    · push_neg at hc
      rw [escChars, if_neg (by tauto)]
      have hcs : (c :: escChars s) ++ ('"' :: rest) =
          c :: (escChars s ++ ('"' :: rest)) := by simp
      rw [hcs, pStr.eq_def]
      simp [hc.1, hc.2, ih rest]

theorem sVal_head_spec (v : JValue) :
    ∃ c t, sVal v = c :: t ∧ c ≠ ']' ∧ c ≠ '}' := by
  match v with
  | .jnull => exact ⟨'n', _, rfl, by decide, by decide⟩
  | .jbool true => exact ⟨'t', _, rfl, by decide, by decide⟩
  | .jbool false => exact ⟨'f', _, rfl, by decide, by decide⟩
  | .jnum (.ofNat m) =>
    obtain ⟨c, t, h⟩ := List.exists_cons_of_ne_nil (natChars_ne_nil m)
    refine ⟨c, t, by simp [sVal, intChars, h], ?_, ?_⟩
    · have := natChars_digits m c (by rw [h]; exact List.mem_cons_self c t)
      intro hc
      rw [hc] at this
      exact absurd this (by decide)
    · have := natChars_digits m c (by rw [h]; exact List.mem_cons_self c t)
      intro hc
      rw [hc] at this
      exact absurd this (by decide)
  | .jnum (.negSucc m) => exact ⟨'-', _, rfl, by decide, by decide⟩
  | .jstr s => exact ⟨'"', _, rfl, by decide, by decide⟩
  | .jarr [] => exact ⟨'[', _, rfl, by decide, by decide⟩
  | .jarr (v :: vs) => exact ⟨'[', _, rfl, by decide, by decide⟩
  | .jobj [] => exact ⟨'{', _, rfl, by decide, by decide⟩
  | .jobj (kv :: kvs) => exact ⟨'{', _, rfl, by decide, by decide⟩

/-- The closing characters emitted by sTail keep a remainder safe after
a printed number. -/
theorem numSafeB_sTail (vs : List JValue) (r : List Char) :
    numSafeB (sTail vs ++ r) = true := by
  cases vs <;> simp [sTail, numSafeB, headNotB]

/-- The closing characters emitted by sOTail keep a remainder safe after
a printed number. -/
theorem numSafeB_sOTail (kvs : List (List Char × JValue)) (r : List Char) :
    numSafeB (sOTail kvs ++ r) = true := by
  cases kvs <;> simp [sOTail, sKV, numSafeB, headNotB]

mutual

theorem muV_le_sVal : ∀ v : JValue, muV v ≤ (sVal v).length
  | .jnull => by simp [muV, sVal]
  | .jbool true => by simp [muV, sVal]
  | .jbool false => by simp [muV, sVal]
  | .jnum n => by
    have : intChars n ≠ [] := by
      cases n with
      | ofNat m => exact natChars_ne_nil m
      | negSucc m => simp [intChars]
    simp only [muV, sVal]
    cases h : intChars n with
    | nil => exact absurd h this
    | cons c t => simp
  | .jstr s => by simp [muV, sVal]
  | .jarr [] => by simp [muV, sVal]
  | .jarr (v :: vs) => by
    have h1 := muV_le_sVal v
    have h2 := muT_le_sTail vs
    simp only [muV, sVal, List.length_cons, List.length_append]
    omega
  | .jobj [] => by simp [muV, sVal]
  | .jobj (kv :: kvs) => by
    have h1 := muKV_le_sKV kv
    have h2 := muOT_le_sOTail kvs
    simp only [muV, sVal, List.length_cons, List.length_append]
    omega

theorem muT_le_sTail : ∀ vs : List JValue, muT vs ≤ (sTail vs).length
  | [] => by simp [muT, sTail]
  | v :: vs => by
    have h1 := muV_le_sVal v
    have h2 := muT_le_sTail vs
    simp only [muT, sTail, List.length_cons, List.length_append]
    omega

theorem muKV_le_sKV : ∀ kv : List Char × JValue, muKV kv ≤ (sKV kv).length
  | (k, v) => by
    have h1 := muV_le_sVal v
    simp only [muKV, sKV, List.length_cons, List.length_append]
    omega

theorem muOT_le_sOTail :
    ∀ kvs : List (List Char × JValue), muOT kvs ≤ (sOTail kvs).length
  | [] => by simp [muOT, sOTail]
  | kv :: kvs => by
    have h1 := muKV_le_sKV kv
    have h2 := muOT_le_sOTail kvs
    simp only [muOT, sOTail, List.length_cons, List.length_append]
    omega

end

mutual

theorem pVal_sVal : ∀ (v : JValue) (fuel : Nat) (rest : List Char),
    muV v ≤ fuel → numSafeB rest = true →
    pVal fuel (sVal v ++ rest) = some (v, rest)
  | .jnull, fuel, rest, hf, hr => by
    simp only [muV] at hf
    obtain ⟨f, rfl⟩ : ∃ f, fuel = f + 1 := ⟨fuel - 1, by omega⟩
    have hs : sVal .jnull ++ rest = 'n' :: 'u' :: 'l' :: 'l' :: rest := by simp [sVal]
    rw [hs, pVal]
    simp +decide [pValStep, pLit]
  | .jbool true, fuel, rest, hf, hr => by
    simp only [muV] at hf
    obtain ⟨f, rfl⟩ : ∃ f, fuel = f + 1 := ⟨fuel - 1, by omega⟩
    have hs : sVal (.jbool true) ++ rest = 't' :: 'r' :: 'u' :: 'e' :: rest := by
      simp [sVal]
    rw [hs, pVal]
    simp +decide [pValStep, pLit]
  | .jbool false, fuel, rest, hf, hr => by
    simp only [muV] at hf
    obtain ⟨f, rfl⟩ : ∃ f, fuel = f + 1 := ⟨fuel - 1, by omega⟩
    have hs : sVal (.jbool false) ++ rest = 'f' :: 'a' :: 'l' :: 's' :: 'e' :: rest := by
      simp [sVal]
    rw [hs, pVal]
    simp +decide [pValStep, pLit]
  | .jnum (.ofNat m), fuel, rest, hf, hr => by
    simp only [muV] at hf
    obtain ⟨f, rfl⟩ : ∃ f, fuel = f + 1 := ⟨fuel - 1, by omega⟩
    have hdig := natChars_digits m
    obtain ⟨d, t, hdt⟩ := List.exists_cons_of_ne_nil (natChars_ne_nil m)
    have hd : d.isDigit = true := hdig d (by rw [hdt]; exact List.mem_cons_self _ _)
    have hspan := takeWhile_all_append Char.isDigit (natChars m) rest hdig hr
    have hs : sVal (.jnum (.ofNat m)) ++ rest = d :: (t ++ rest) := by
      simp [sVal, intChars, hdt]
    have hback : d :: (t ++ rest) = natChars m ++ rest := by rw [hdt]; simp
    rw [hs, pVal]
    simp [pValStep, hd, hback, hspan.1, hspan.2, digitsToNat_natChars]
  | .jnum (.negSucc m), fuel, rest, hf, hr => by
    simp only [muV] at hf
    obtain ⟨f, rfl⟩ : ∃ f, fuel = f + 1 := ⟨fuel - 1, by omega⟩
    have hdig := natChars_digits (m + 1)
    have hspan := takeWhile_all_append Char.isDigit (natChars (m + 1)) rest hdig hr
    have hs : sVal (.jnum (.negSucc m)) ++ rest = '-' :: (natChars (m + 1) ++ rest) := by
      simp [sVal, intChars]
    have hemp : (natChars (m + 1)).isEmpty = false := by
      cases h : natChars (m + 1) with
      | nil => exact absurd h (natChars_ne_nil _)
      | cons a b => rfl
    rw [hs, pVal]
    simp +decide [pValStep, hspan.1, hspan.2, hemp, digitsToNat_natChars,
      Int.negSucc_eq]
  | .jstr s, fuel, rest, hf, hr => by
    simp only [muV] at hf
    obtain ⟨f, rfl⟩ : ∃ f, fuel = f + 1 := ⟨fuel - 1, by omega⟩
    have hs : sVal (.jstr s) ++ rest = '"' :: (escChars s ++ ('"' :: rest)) := by
      simp [sVal]
    rw [hs, pVal]
    simp +decide [pValStep, pStr_escChars s rest]
  | .jarr [], fuel, rest, hf, hr => by
    simp only [muV] at hf
    obtain ⟨f, rfl⟩ : ∃ f, fuel = f + 1 := ⟨fuel - 1, by omega⟩
    have hs : sVal (.jarr []) ++ rest = '[' :: (']' :: rest) := by simp [sVal]
    rw [hs, pVal]
    simp +decide [pValStep]
  | .jarr (v :: vs), fuel, rest, hf, hr => by
    simp only [muV] at hf
    obtain ⟨f, rfl⟩ : ∃ f, fuel = f + 1 := ⟨fuel - 1, by omega⟩
    have hfv : muV v ≤ f := by omega
    have hft : muT vs ≤ f := by omega
    obtain ⟨c2, t2, hc2, hne1, hne2⟩ := sVal_head_spec v
    have hs : sVal (.jarr (v :: vs)) ++ rest =
        '[' :: (c2 :: (t2 ++ (sTail vs ++ rest))) := by
      simp [sVal, hc2]
    have hback : c2 :: (t2 ++ (sTail vs ++ rest)) = sVal v ++ (sTail vs ++ rest) := by
      rw [hc2]
      simp
    have hpv : pVal f (sVal v ++ (sTail vs ++ rest)) = some (v, sTail vs ++ rest) :=
      pVal_sVal v f (sTail vs ++ rest) hfv (numSafeB_sTail vs rest)
    have hpa : pATail f (sTail vs ++ rest) = some (vs, rest) :=
      pATail_sTail vs f rest hft hr
    rw [hs, pVal]
    simp +decide only [pValStep, ite_true, ite_false]
    rw [if_neg hne1, hback, hpv]
    simp [hpa]
  | .jobj [], fuel, rest, hf, hr => by
    simp only [muV] at hf
    obtain ⟨f, rfl⟩ : ∃ f, fuel = f + 1 := ⟨fuel - 1, by omega⟩
    have hs : sVal (.jobj []) ++ rest = '{' :: ('}' :: rest) := by simp [sVal]
    rw [hs, pVal]
    simp +decide [pValStep]
  | .jobj (kv :: kvs), fuel, rest, hf, hr => by
    simp only [muV] at hf
    obtain ⟨f, rfl⟩ : ∃ f, fuel = f + 1 := ⟨fuel - 1, by omega⟩
    have hfk : muKV kv ≤ f := by omega
    have hfo : muOT kvs ≤ f := by omega
    obtain ⟨k, v⟩ := kv
    have hs : sVal (.jobj ((k, v) :: kvs)) ++ rest =
        '{' :: ('"' :: ((escChars k ++ ['"', ':'] ++ sVal v) ++ (sOTail kvs ++ rest))) := by
      simp [sVal, sKV]
    have hback : ('"' :: ((escChars k ++ ['"', ':'] ++ sVal v) ++ (sOTail kvs ++ rest))) =
        sKV (k, v) ++ (sOTail kvs ++ rest) := by
      simp [sKV]
    have hpk : pKV f (sKV (k, v) ++ (sOTail kvs ++ rest)) =
        some ((k, v), sOTail kvs ++ rest) :=
      pKV_sKV (k, v) f (sOTail kvs ++ rest) hfk (numSafeB_sOTail kvs rest)
    have hpo : pOTail f (sOTail kvs ++ rest) = some (kvs, rest) :=
      pOTail_sOTail kvs f rest hfo hr
    rw [hs, pVal]
    simp +decide only [pValStep, ite_true, ite_false]
    rw [hback, hpk]
    simp [hpo]

theorem pATail_sTail : ∀ (vs : List JValue) (fuel : Nat) (rest : List Char),
    muT vs ≤ fuel → numSafeB rest = true →
    pATail fuel (sTail vs ++ rest) = some (vs, rest)
  | [], fuel, rest, hf, hr => by
    simp only [muT] at hf
    obtain ⟨f, rfl⟩ : ∃ f, fuel = f + 1 := ⟨fuel - 1, by omega⟩
    have hs : sTail [] ++ rest = ']' :: rest := by simp [sTail]
    rw [hs, pATail]
    simp [pATailStep]
  | v :: vs, fuel, rest, hf, hr => by
    simp only [muT] at hf
    obtain ⟨f, rfl⟩ : ∃ f, fuel = f + 1 := ⟨fuel - 1, by omega⟩
    have hfv : muV v ≤ f := by omega
    have hft : muT vs ≤ f := by omega
    have hs : sTail (v :: vs) ++ rest = ',' :: (sVal v ++ (sTail vs ++ rest)) := by
      simp [sTail]
    have hpv : pVal f (sVal v ++ (sTail vs ++ rest)) = some (v, sTail vs ++ rest) :=
      pVal_sVal v f (sTail vs ++ rest) hfv (numSafeB_sTail vs rest)
    have hpa : pATail f (sTail vs ++ rest) = some (vs, rest) :=
      pATail_sTail vs f rest hft hr
    rw [hs, pATail]
    simp +decide only [pATailStep, ite_true, ite_false]
    rw [hpv]
    simp [hpa]

theorem pKV_sKV : ∀ (kv : List Char × JValue) (fuel : Nat) (rest : List Char),
    muKV kv ≤ fuel → numSafeB rest = true →
    pKV fuel (sKV kv ++ rest) = some (kv, rest)
  | (k, v), fuel, rest, hf, hr => by
    simp only [muKV] at hf
    obtain ⟨f, rfl⟩ : ∃ f, fuel = f + 1 := ⟨fuel - 1, by omega⟩
    have hfv : muV v ≤ f := by omega
    have hs : sKV (k, v) ++ rest =
        '"' :: (escChars k ++ ('"' :: (':' :: (sVal v ++ rest)))) := by
      simp [sKV]
    have hpv : pVal f (sVal v ++ rest) = some (v, rest) :=
      pVal_sVal v f rest hfv hr
    rw [hs, pKV]
    simp +decide only [pKVStep, ite_true, ite_false]
    rw [pStr_escChars k (':' :: (sVal v ++ rest))]
    simp [hpv]

theorem pOTail_sOTail : ∀ (kvs : List (List Char × JValue)) (fuel : Nat)
    (rest : List Char), muOT kvs ≤ fuel → numSafeB rest = true →
    pOTail fuel (sOTail kvs ++ rest) = some (kvs, rest)
  | [], fuel, rest, hf, hr => by
    simp only [muOT] at hf
    obtain ⟨f, rfl⟩ : ∃ f, fuel = f + 1 := ⟨fuel - 1, by omega⟩
    have hs : sOTail [] ++ rest = '}' :: rest := by simp [sOTail]
    rw [hs, pOTail]
    simp [pOTailStep]
  | kv :: kvs, fuel, rest, hf, hr => by
    simp only [muOT] at hf
    obtain ⟨f, rfl⟩ : ∃ f, fuel = f + 1 := ⟨fuel - 1, by omega⟩
    have hfk : muKV kv ≤ f := by omega
    have hfo : muOT kvs ≤ f := by omega
    have hs : sOTail (kv :: kvs) ++ rest = ',' :: (sKV kv ++ (sOTail kvs ++ rest)) := by
      simp [sOTail]
    have hpk : pKV f (sKV kv ++ (sOTail kvs ++ rest)) =
        some (kv, sOTail kvs ++ rest) :=
      pKV_sKV kv f (sOTail kvs ++ rest) hfk (numSafeB_sOTail kvs rest)
    have hpo : pOTail f (sOTail kvs ++ rest) = some (kvs, rest) :=
      pOTail_sOTail kvs f rest hfo hr
    rw [hs, pOTail]
    simp +decide only [pOTailStep, ite_true, ite_false]
    rw [hpk]
    simp [hpo]

end

/-- The JSON roundtrip: parsing the printed form of any JSON value gives
back exactly that value. -/
theorem jsonParse_sVal (v : JValue) : jsonParse (sVal v) = some v := by
  have hmu : muV v ≤ (sVal v).length + 1 :=
    le_trans (muV_le_sVal v) (Nat.le_succ _)
  have h := pVal_sVal v ((sVal v).length + 1) [] hmu rfl
  rw [List.append_nil] at h
  rw [jsonParse, h]

/-- C4: POST /api/votes rejects every coverId outside cover1..cover3 with
status 400 and leaves the votes unchanged; for a valid coverId a
successful request increments exactly that key and keeps the other keys
unchanged, so the key set (exactly cover1, cover2, cover3) is preserved. -/
theorem votes_post_three_keys (votes : VotesMap) (coverId : String)
    (hkeys : ∀ k, (votes k).isSome ↔ k ∈ validCoverIds) :
    (coverId ∉ validCoverIds →
      ∀ readOk writeOk, votesPost votes coverId readOk writeOk = (400, votes)) ∧
    (coverId ∈ validCoverIds →
      (votesPost votes coverId true true).1 = 200 ∧
      (votesPost votes coverId true true).2 coverId = some ((votes coverId).getD 0 + 1) ∧
      (∀ k, k ≠ coverId → (votesPost votes coverId true true).2 k = votes k) ∧
      (∀ k, ((votesPost votes coverId true true).2 k).isSome ↔ k ∈ validCoverIds)) := by
  constructor
  · intro hnot readOk writeOk
    simp only [votesPost]
    rw [if_pos (Or.inr hnot)]
  · intro hmem
    have hne : coverId ≠ "" := by
      intro h
      rw [h] at hmem
      simp [validCoverIds] at hmem
    have hcond : ¬ (coverId = "" ∨ coverId ∉ validCoverIds) := by
      push_neg
      exact ⟨hne, hmem⟩
    refine ⟨?_, ?_, ?_, ?_⟩
    · simp only [votesPost, hcond, if_false, if_true, Bool.true_eq_false]
    · simp only [votesPost, hcond, if_false, if_true, Bool.true_eq_false, if_pos rfl]
    · intro k hk
      simp only [votesPost, hcond, if_false, if_true, Bool.true_eq_false]
      simp [hk]
    · intro k
      by_cases hk : k = coverId
      · subst hk
        simp only [votesPost, hcond, if_false, if_true, Bool.true_eq_false]
        simp [hmem]
      · simp only [votesPost, hcond, if_false, if_true, Bool.true_eq_false]
        simp only [if_neg hk]
        exact hkeys k

/-- Witness for votes_post_three_keys at a concrete three-key map, an
invalid id (cover9, rejected unchanged) and a valid id (cover2,
incremented). -/
theorem votes_post_three_keys_witness :
    (let votes0 : VotesMap := fun k => if k ∈ validCoverIds then some 10 else none
     votesPost votes0 "cover9" true true = (400, votes0) ∧
     (votesPost votes0 "cover2" true true).2 "cover2" = some 11) := by
  intro votes0
  have hkeys : ∀ k, (votes0 k).isSome ↔ k ∈ validCoverIds := by
    intro k
    by_cases hk : k ∈ validCoverIds <;> simp [votes0, hk]
  refine ⟨?_, ?_⟩
  · exact (votes_post_three_keys votes0 "cover9" hkeys).1 (by decide) true true
  · have h := ((votes_post_three_keys votes0 "cover2" hkeys).2 (by decide)).2.1
    rw [h]
    simp [votes0, validCoverIds]

/-- C5: a successful POST /api/visits/increment adds exactly 1 to the
daily counter for today whatever the page argument is, adds 1 to total
exactly when page is total, adds 1 to coverPage exactly when page is
cover, and leaves every other daily key unchanged. -/
theorem visits_increment_spec (v : Visits) (page today nowIso : String) :
    (visitsIncrement v page today nowIso true true).1 = 200 ∧
    (visitsIncrement v page today nowIso true true).2.daily today =
      some ((v.daily today).getD 0 + 1) ∧
    (visitsIncrement v page today nowIso true true).2.total =
      v.total + (if page = "total" then 1 else 0) ∧
    (visitsIncrement v page today nowIso true true).2.coverPage =
      v.coverPage + (if page = "cover" then 1 else 0) ∧
    (∀ k, k ≠ today →
      (visitsIncrement v page today nowIso true true).2.daily k = v.daily k) := by
  by_cases ht : page = "total"
  · subst ht
    refine ⟨rfl, ?_, ?_, ?_, ?_⟩
    · simp [visitsIncrement]
    · simp [visitsIncrement]
    · simp [visitsIncrement]
    · intro k hk
      simp [visitsIncrement, hk]
  · by_cases hc : page = "cover"
    · subst hc
      refine ⟨rfl, ?_, ?_, ?_, ?_⟩
      · simp [visitsIncrement]
      · simp [visitsIncrement]
      · simp [visitsIncrement]
      · intro k hk
        simp [visitsIncrement, hk]
    · refine ⟨rfl, ?_, ?_, ?_, ?_⟩
      · simp [visitsIncrement, ht, hc]
      · simp [visitsIncrement, ht, hc]
      · simp [visitsIncrement, ht, hc]
      · intro k hk
        simp [visitsIncrement, ht, hc, hk]

/-- C10: storage round-trip.  After saveToStorage key v succeeds,
getFromStorage key returns exactly v (JSON.parse of JSON.stringify of v),
and getFromStorage of a key that was never written returns the supplied
default. -/
theorem storage_roundtrip (st : StorageMap) (key : String) (v dflt : JValue) :
    (saveToStorage st key v).2 = true ∧
    getFromStorage (saveToStorage st key v).1 key dflt = v ∧
    (∀ k, st k = none → getFromStorage st k dflt = dflt) := by
  refine ⟨rfl, ?_, ?_⟩
  · simp [getFromStorage, saveToStorage, jsonParse_sVal]
  · intro k hk
    simp [getFromStorage, hk]

/-- Witness for storage_roundtrip: a concrete object value survives the
round-trip through an initially empty storage, and reading the empty
storage yields the default. -/
theorem storage_roundtrip_witness :
    (getFromStorage (saveToStorage emptyStorage "visits"
        (.jobj [("total".data, .jnum 3)])).1 "visits" .jnull =
      .jobj [("total".data, .jnum 3)]) ∧
    getFromStorage emptyStorage "comments" (.jarr []) = .jarr [] := by
  constructor
  · exact (storage_roundtrip emptyStorage "visits"
      (.jobj [("total".data, .jnum 3)]) .jnull).2.1
  · exact (storage_roundtrip emptyStorage "visits"
      (.jobj [("total".data, .jnum 3)]) (.jarr [])).2.2 "comments" rfl

/-- C2 counterexample: the record that the hybridAPI.addComment fallback
places into the pendingComments store for a submission without an
attempts field has no attempts field, so it is not the submitted comment
extended with pending true and a numeric attempts field. -/
theorem hybrid_fallback_record_no_attempts :
    (hybridAPI_addComment .netFail [] plainSubmission 123 ['d'] =
      .ok (⟨true, hybridFallbackRecord plainSubmission 123 ['d']⟩,
           [hybridFallbackRecord plainSubmission 123 ['d']])) ∧
    ¬ pendingRecordOk (hybridFallbackRecord plainSubmission 123 ['d']) := by
  constructor
  · rfl
  · intro h
    have := h.2
    simp [hybridFallbackRecord, plainSubmission] at this

/-- C2 amended: commentsStorage.addPending always stores the submitted
comment extended with pending true and attempts 0, while the
hybridAPI.addComment fallback stores it extended with pending true, a
generated id and date, and an attempts field only when the submitted
comment already carries one (the field is preserved, not added). -/
theorem pending_record_shapes (c : PComment) (now : Nat) (nowIso : List Char) :
    ((addPendingRecord c now nowIso).pending = some true ∧
     (addPendingRecord c now nowIso).attempts = some 0) ∧
    ((hybridFallbackRecord c now nowIso).pending = some true ∧
     (hybridFallbackRecord c now nowIso).attempts = c.attempts) := by
  exact ⟨⟨rfl, rfl⟩, ⟨rfl, rfl⟩⟩

/-- C3: when the network request fails, hybridAPI.addComment does not
propagate the error: it resolves with success true, returning the
submitted comment extended with a generated Date.now() id, the current
ISO date and pending true, and appends exactly that record to the
pendingComments array. -/
theorem hybrid_addComment_fallback (store : List PComment) (c : PComment)
    (now : Nat) (nowIso : List Char) :
    hybridAPI_addComment .netFail store c now nowIso =
      .ok (⟨true, hybridFallbackRecord c now nowIso⟩,
           store ++ [hybridFallbackRecord c now nowIso]) ∧
    (hybridFallbackRecord c now nowIso).pending = some true ∧
    (hybridFallbackRecord c now nowIso).id = some (.numeric now) ∧
    (hybridFallbackRecord c now nowIso).date = some nowIso ∧
    (hybridFallbackRecord c now nowIso).name = c.name ∧
    (hybridFallbackRecord c now nowIso).email = c.email ∧
    (hybridFallbackRecord c now nowIso).message = c.message := by
  exact ⟨rfl, rfl, rfl, rfl, rfl, rfl, rfl⟩

/-- C7: when the guard flag is set, or the client is offline, or the
pending store is empty, retryPendingComments returns zero counters,
attempts no sends, schedules nothing and leaves the store unchanged. -/
theorem retry_guard_noop (maxRetries : Nat) (guard online : Bool)
    (store : List PComment) (env : Nat → RetryStepEnv)
    (h : guard = true ∨ online = false ∨ store = []) :
    retryRound maxRetries guard online store env = ⟨store, 0, 0, [], none⟩ := by
  rcases h with hg | ho | hs
  · simp [retryRound, hg]
  · simp [retryRound, ho]
  · subst hs
    cases guard <;> cases online <;> simp [retryRound]

/-- Witness for retry_guard_noop: a guarded call with a non-empty store,
an offline call, and a call on the empty store all return zero counters
and touch nothing. -/
theorem retry_guard_noop_witness :
    retryRound 3 true true [maxedComment] (constEnv 0) =
      ⟨[maxedComment], 0, 0, [], none⟩ ∧
    retryRound 3 false false [maxedComment] (constEnv 0) =
      ⟨[maxedComment], 0, 0, [], none⟩ ∧
    retryRound 3 false true [] (constEnv 0) = ⟨[], 0, 0, [], none⟩ :=
  ⟨retry_guard_noop 3 true true [maxedComment] (constEnv 0) (Or.inl rfl),
   retry_guard_noop 3 false false [maxedComment] (constEnv 0) (Or.inr (Or.inl rfl)),
   retry_guard_noop 3 false true [] (constEnv 0) (Or.inr (Or.inr rfl))⟩

/-- C1: at every round of the retry chain, whenever pending comments
remain afterwards, the next round is scheduled with the constant delay of
five minutes (300000 ms), whatever the store contents and attempt counts
are; so the rescheduling recurs without bound while the store stays
non-empty. -/
theorem retry_reschedules_fixed_delay (maxRetries : Nat)
    (envs : Nat → Nat → RetryStepEnv) (store0 : List PComment) (n : Nat)
    (h : (retryTrace maxRetries envs store0 n).store ≠ []) :
    (retryTrace maxRetries envs store0 n).delay = some (5 * 60 * 1000) := by
  have key : ∀ (st : List PComment) (env : Nat → RetryStepEnv),
      (retryRound maxRetries false true st env).store ≠ [] →
      (retryRound maxRetries false true st env).delay = some (5 * 60 * 1000) := by
    intro st env hne
    by_cases hst : st.isEmpty
    · rw [List.isEmpty_iff] at hst
      subst hst
      simp [retryRound] at hne
    · rw [retryRound, if_neg (by simp), if_neg hst] at hne ⊢
      simp only [ne_eq] at hne
      simp only []
      rw [if_neg (by simpa [List.isEmpty_iff] using hne)]
  cases n with
  | zero => exact key store0 (envs 0) h
  | succ m =>
    exact key (retryTrace maxRetries envs store0 m).store (envs (m + 1)) h

/-- Witness for retry_reschedules_fixed_delay: with one maxed-out pending
comment the store stays non-empty, and the third round still schedules
the next one 300000 ms later. -/
theorem retry_reschedules_fixed_delay_witness :
    (retryTrace 3 constEnv [maxedComment] 2).store ≠ [] ∧
    (retryTrace 3 constEnv [maxedComment] 2).delay = some (5 * 60 * 1000) :=
  ⟨by decide,
   retry_reschedules_fixed_delay 3 constEnv [maxedComment] 2 (by decide)⟩

/-- incrementAttempts only rewrites the first record carrying the target
id, so a record with a different id stays in the store unchanged. -/
theorem mem_incrementAttempts (c : PComment) :
    ∀ (store : List PComment) (tid : Option CID) (iso : List Char),
      c ∈ store → c.id ≠ tid → c ∈ incrementAttempts store tid iso := by
  intro store
  induction store with
  | nil => intro tid iso h _; exact absurd h (List.not_mem_nil c)
  | cons e tl ih =>
    intro tid iso hmem hne
    rcases List.mem_cons.1 hmem with rfl | htl
    · rw [incrementAttempts, if_neg hne]
      exact List.mem_cons_self _ _
    · by_cases he : e.id = tid
      · rw [incrementAttempts, if_pos he]
        exact List.mem_cons_of_mem _ htl
      · rw [incrementAttempts, if_neg he]
        exact List.mem_cons_of_mem _ (ih tid iso htl hne)

/-- Every record in the store after incrementAttempts is either an
original record or the bumped copy of an original record with the target
id. -/
theorem incrementAttempts_mem_src :
    ∀ (store : List PComment) (tid : Option CID) (iso : List Char)
      (c2 : PComment), c2 ∈ incrementAttempts store tid iso →
      c2 ∈ store ∨ ∃ c1 ∈ store, c1.id = tid ∧
        c2 = { c1 with attempts := some (c1.attempts.getD 0 + 1),
                       lastAttempt := some iso } := by
  intro store
  induction store with
  | nil => intro tid iso c2 h; exact absurd h (List.not_mem_nil c2)
  | cons e tl ih =>
    intro tid iso c2 h
    by_cases he : e.id = tid
    · rw [incrementAttempts, if_pos he] at h
      rcases List.mem_cons.1 h with rfl | htl
      · exact Or.inr ⟨e, List.mem_cons_self _ _, he, rfl⟩
      · exact Or.inl (List.mem_cons_of_mem _ htl)
    · rw [incrementAttempts, if_neg he] at h
      rcases List.mem_cons.1 h with rfl | htl
      · exact Or.inl (List.mem_cons_self _ _)
      · rcases ih tid iso c2 htl with h1 | ⟨c1, hc1, hid, heq⟩
        · exact Or.inl (List.mem_cons_of_mem _ h1)
        · exact Or.inr ⟨c1, List.mem_cons_of_mem _ hc1, hid, heq⟩

/-- Uniqueness of a record's id is preserved by incrementAttempts when
the target id differs from it. -/
theorem incrementAttempts_uniq (c : PComment) (store : List PComment)
    (tid : Option CID) (iso : List Char) (hne : tid ≠ c.id)
    (huniq : ∀ c2 ∈ store, c2 ≠ c → c2.id ≠ c.id) :
    ∀ c2 ∈ incrementAttempts store tid iso, c2 ≠ c → c2.id ≠ c.id := by
  intro c2 h2 hne2
  rcases incrementAttempts_mem_src store tid iso c2 h2 with h1 | ⟨c1, hc1, hid, heq⟩
  · exact huniq c2 h1 hne2
  · have : c2.id = tid := by rw [heq]; exact hid
    rw [this]
    exact hne

/-- Walking the snapshot never sends a maxed-out comment and never drops
it from the store, provided it is the only record with its id and the
fallback never generates its id. -/
theorem retryLoop_maxed (maxRetries : Nat) (env : Nat → RetryStepEnv)
    (c : PComment) (hmax : attemptsExceeded c.attempts maxRetries = true)
    (hfresh : ∀ j, some (CID.numeric ((env j).now)) ≠ c.id) :
    ∀ (rest : List PComment) (i : Nat) (store : List PComment),
      c ∈ store →
      (∀ c2 ∈ store, c2 ≠ c → c2.id ≠ c.id) →
      (∀ c2 ∈ rest, c2 ≠ c → c2.id ≠ c.id) →
      c ∈ (retryLoop maxRetries env i store rest).store ∧
      (∀ c2 ∈ (retryLoop maxRetries env i store rest).store,
        c2 ≠ c → c2.id ≠ c.id) ∧
      c.id ∉ (retryLoop maxRetries env i store rest).sends := by
  intro rest
  induction rest with
  | nil =>
    intro i store hin huniq _
    rw [retryLoop]
    exact ⟨hin, huniq, List.not_mem_nil _⟩
  | cons d rest ih =>
    intro i store hin huniq hrest
    have hrest2 : ∀ c2 ∈ rest, c2 ≠ c → c2.id ≠ c.id :=
      fun c2 h2 => hrest c2 (List.mem_cons_of_mem _ h2)
    by_cases hd : attemptsExceeded d.attempts maxRetries = true
    · rw [retryLoop, if_pos hd]
      exact ih (i + 1) store hin huniq hrest2
    · have hdc : d ≠ c := by
        intro h
        rw [h, hmax] at hd
        exact hd rfl
      have hdid : d.id ≠ c.id := hrest d (List.mem_cons_self _ _) hdc
      have hcd : c.id ≠ d.id := fun h => hdid h.symm
      rw [retryLoop, if_neg hd]
      have hin1 : c ∈ incrementAttempts store d.id (env i).nowIso :=
        mem_incrementAttempts c store d.id (env i).nowIso hin (fun h => hdid h.symm)
      have huniq1 : ∀ c2 ∈ incrementAttempts store d.id (env i).nowIso,
          c2 ≠ c → c2.id ≠ c.id :=
        incrementAttempts_uniq c store d.id (env i).nowIso hdid huniq
      cases hO : (env i).hOut with
      | server resp =>
        simp only [hybridAPI_addComment]
        have hin3 : c ∈ removePending
            (incrementAttempts store d.id (env i).nowIso) d.id := by
          rw [removePending, List.mem_filter]
          exact ⟨hin1, by simp [hcd]⟩
        have huniq3 : ∀ c2 ∈ removePending
            (incrementAttempts store d.id (env i).nowIso) d.id,
            c2 ≠ c → c2.id ≠ c.id := by
          intro c2 h2 hne2
          exact huniq1 c2 (List.mem_filter.1 h2).1 hne2
        have hr := ih (i + 1) _ hin3 huniq3 hrest2
        refine ⟨hr.1, hr.2.1, ?_⟩
        intro hmem
        rcases List.mem_cons.1 hmem with hcd | hin4
        · exact hdid hcd.symm
        · exact hr.2.2 hin4
      | netFail =>
        simp only [hybridAPI_addComment]
        have hfid : (hybridFallbackRecord { d with id := none } (env i).now
            (env i).nowIso).id = some (.numeric ((env i).now)) := rfl
        have hin3 : c ∈ removePending
            (incrementAttempts store d.id (env i).nowIso ++
              [hybridFallbackRecord { d with id := none } (env i).now
                (env i).nowIso]) d.id := by
          rw [removePending, List.mem_filter]
          refine ⟨List.mem_append_left _ hin1, by simp [hcd]⟩
        have huniq3 : ∀ c2 ∈ removePending
            (incrementAttempts store d.id (env i).nowIso ++
              [hybridFallbackRecord { d with id := none } (env i).now
                (env i).nowIso]) d.id,
            c2 ≠ c → c2.id ≠ c.id := by
          intro c2 h2 hne2
          rcases List.mem_append.1 (List.mem_filter.1 h2).1 with h3 | h3
          · exact huniq1 c2 h3 hne2
          · rw [List.mem_singleton.1 h3, hfid]
            exact hfresh i
        have hr := ih (i + 1) _ hin3 huniq3 hrest2
        refine ⟨hr.1, hr.2.1, ?_⟩
        intro hmem
        rcases List.mem_cons.1 hmem with hcd | hin4
        · exact hdid hcd.symm
        · exact hr.2.2 hin4
      | storageFail =>
        simp only [hybridAPI_addComment]
        have hr := ih (i + 1) _ hin1 huniq1 hrest2
        refine ⟨hr.1, hr.2.1, ?_⟩
        intro hmem
        rcases List.mem_cons.1 hmem with hcd | hin4
        · exact hdid hcd.symm
        · exact hr.2.2 hin4

/-- One retryPendingComments call never sends and never drops a maxed-out
comment that is the only record with its id (whatever the guard, the
online flag and the environment are). -/
theorem retryRound_maxed (maxRetries : Nat) (guard online : Bool)
    (store : List PComment) (env : Nat → RetryStepEnv) (c : PComment)
    (hmax : attemptsExceeded c.attempts maxRetries = true)
    (hfresh : ∀ j, some (CID.numeric ((env j).now)) ≠ c.id)
    (hin : c ∈ store)
    (huniq : ∀ c2 ∈ store, c2 ≠ c → c2.id ≠ c.id) :
    c ∈ (retryRound maxRetries guard online store env).store ∧
    (∀ c2 ∈ (retryRound maxRetries guard online store env).store,
      c2 ≠ c → c2.id ≠ c.id) ∧
    c.id ∉ (retryRound maxRetries guard online store env).sends := by
  rw [retryRound]
  by_cases hg : guard = true ∨ online = false
  · rw [if_pos hg]
    exact ⟨hin, huniq, List.not_mem_nil _⟩
  · rw [if_neg hg]
    by_cases hs : store.isEmpty
    · rw [if_pos hs]
      exact ⟨hin, huniq, List.not_mem_nil _⟩
    · rw [if_neg hs]
      exact retryLoop_maxed maxRetries env c hmax hfresh store 0 store hin huniq huniq

/-- C8: along the whole retry chain, a pending comment whose attempts
counter reached maxRetries is never sent to the server again and is never
removed from the pending store, so it stays queued at every round. -/
theorem retry_maxed_stays_queued (maxRetries : Nat)
    (envs : Nat → Nat → RetryStepEnv) (store0 : List PComment) (c : PComment)
    (hmax : attemptsExceeded c.attempts maxRetries = true)
    (hin : c ∈ store0)
    (huniq : ∀ c2 ∈ store0, c2 ≠ c → c2.id ≠ c.id)
    (hfresh : ∀ m j, some (CID.numeric ((envs m j).now)) ≠ c.id) :
    ∀ n, c ∈ (retryTrace maxRetries envs store0 n).store ∧
      c.id ∉ (retryTrace maxRetries envs store0 n).sends := by
  have key : ∀ n, c ∈ (retryTrace maxRetries envs store0 n).store ∧
      (∀ c2 ∈ (retryTrace maxRetries envs store0 n).store,
        c2 ≠ c → c2.id ≠ c.id) ∧
      c.id ∉ (retryTrace maxRetries envs store0 n).sends := by
    intro n
    induction n with
    | zero =>
      exact retryRound_maxed maxRetries false true store0 (envs 0) c hmax
        (hfresh 0) hin huniq
    | succ m ihm =>
      exact retryRound_maxed maxRetries false true
        (retryTrace maxRetries envs store0 m).store (envs (m + 1)) c hmax
        (hfresh (m + 1)) ihm.1 ihm.2.1
  exact fun n => ⟨(key n).1, (key n).2.2⟩

/-- Witness for retry_maxed_stays_queued: the single maxed-out comment is
still in the store and was never sent after four rounds. -/
theorem retry_maxed_stays_queued_witness :
    maxedComment ∈ (retryTrace 3 constEnv [maxedComment] 3).store ∧
    maxedComment.id ∉ (retryTrace 3 constEnv [maxedComment] 3).sends := by
  have hfresh : ∀ m j, some (CID.numeric ((constEnv m j).now)) ≠ maxedComment.id := by
    intro m j
    simp [constEnv, maxedComment]
  have huniq : ∀ c2 ∈ [maxedComment], c2 ≠ maxedComment →
      c2.id ≠ maxedComment.id := by
    intro c2 h2 hne
    rw [List.mem_singleton.1 h2] at hne
    exact absurd rfl hne
  exact retry_maxed_stays_queued 3 constEnv [maxedComment] maxedComment
    (by decide) (List.mem_singleton.2 rfl) huniq hfresh 3

/-- C9: addComment returns success false and adds nothing to the
displayed comments or the pending store whenever the trimmed name is
shorter than 2 characters, the email fails the pattern, the trimmed
message is shorter than 10 characters, the message is longer than 1000
characters, or the message contains a forbidden word. -/
theorem addComment_rejects_invalid (input : CommentInput)
    (comments pendingStore : List PComment)
    (isOnline enableOffline isDup : Bool) (hOut : HybridOutcome)
    (now : Nat) (rand nowIso : List Char)
    (h : (trimChars input.name).length < 2 ∨
         emailValid input.email = false ∨
         (trimChars input.message).length < 10 ∨
         1000 < input.message.length ∨
         forbiddenWords.any
           (fun w => hasSubstr (lowerChars input.message) (lowerChars w)) = true) :
    (addComment_OLD input comments pendingStore isOnline enableOffline
        isDup hOut now rand nowIso).success = false ∧
    (addComment_OLD input comments pendingStore isOnline enableOffline
        isDup hOut now rand nowIso).comments = comments ∧
    (addComment_OLD input comments pendingStore isOnline enableOffline
        isDup hOut now rand nowIso).pendingStore = pendingStore := by
  have hv : validateComment input ≠ [] := by
    rcases h with h1 | h1 | h1 | h1 | h1
    · simp [validateComment, h1]
    · simp [validateComment, h1]
    · simp [validateComment, h1]
    · have hne : input.message ≠ [] := by
        intro he
        rw [he] at h1
        simp at h1
      simp [validateComment, h1, hne]
    · simp [validateComment, h1]
  rw [addComment_OLD, if_pos hv]
  exact ⟨rfl, rfl, rfl⟩

/-- Witness for addComment_rejects_invalid: a one-character name is
rejected with success false and untouched state. -/
theorem addComment_rejects_invalid_witness :
    (trimChars shortNameInput.name).length < 2 ∧
    (addComment_OLD shortNameInput [] [maxedComment] true true false
        .netFail 1 [] []).success = false ∧
    (addComment_OLD shortNameInput [] [maxedComment] true true false
        .netFail 1 [] []).pendingStore = [maxedComment] :=
  ⟨by decide,
   (addComment_rejects_invalid shortNameInput [] [maxedComment] true true
      false .netFail 1 [] [] (Or.inl (by decide))).1,
   (addComment_rejects_invalid shortNameInput [] [maxedComment] true true
      false .netFail 1 [] [] (Or.inl (by decide))).2.2⟩

/-- C6: a successful fetch of page one mirrors the fetched list to the
storage key comments_(postId) and displays it, and a failed fetch of page
one with a non-empty mirror displays the mirrored list. -/
theorem loadComments_mirror (pid : List Char) (resetComments : Bool)
    (result : FetchPage) (st : CommentsState) :
    ((loadComments (some pid) 1 resetComments (.ok result) st).storage
        (commentsKey pid) = some result.comments ∧
     (loadComments (some pid) 1 resetComments (.ok result) st).comments =
        result.comments) ∧
    ((st.storage (commentsKey pid)).getD [] ≠ [] →
      (loadComments (some pid) 1 resetComments (.error ()) st).comments =
        (st.storage (commentsKey pid)).getD []) := by
  refine ⟨⟨?_, ?_⟩, ?_⟩
  · simp [loadComments]
  · simp [loadComments]
  · intro hne
    simp [loadComments, hne]

/-- Witness for loadComments_mirror: a failed page-one fetch over the
cached state displays the cached comment, and a successful one rewrites
the mirror. -/
theorem loadComments_mirror_witness :
    (loadComments (some ['p']) 1 false (.ok ⟨[], false⟩) cachedState).storage
        (commentsKey ['p']) = some [] ∧
    ((cachedState.storage (commentsKey ['p'])).getD [] ≠ [] ∧
     (loadComments (some ['p']) 1 false (.error ()) cachedState).comments =
        (cachedState.storage (commentsKey ['p'])).getD []) :=
  ⟨(loadComments_mirror ['p'] false ⟨[], false⟩ cachedState).1.1,
   by decide,
   (loadComments_mirror ['p'] false ⟨[], false⟩ cachedState).2 (by decide)⟩

end Lucien
